import Mathlib

/-!
Verification of the grid navigation engine of `awap-noodle`
(`src/bots/efficient_bot_tools.py`): static map index, multi-source BFS
distance fields, greedy best-step selection and the caching navigator.

Machine model: positions and steps are pairs of (unbounded) integers,
matching Python `int`.  The mutable `dist` matrix of the BFS is embedded
as a function `Pos → Int` updated pointwise; the FIFO `deque` is a list
popped at the head and appended at the tail.  The `while q:` loop is a
fuel-indexed recursion; the fuel chosen in `DistanceField.build` is shown
sufficient (lemma `bfsLoop_post`), so the loop always drains its queue.
-/

namespace Noodle

abbrev Pos := Int × Int
abbrev Step := Int × Int

/-- `NEIGHBORS_8` from the source: the eight step offsets, in the fixed
order used for deterministic iteration. -/
def NEIGHBORS_8 : List Step :=
  [(-1, -1), (-1, 0), (-1, 1), (0, -1), (0, 1), (1, -1), (1, 0), (1, 1)]

/-- `chebyshev(a, b)` from the source: `max(abs(ax-bx), abs(ay-by))`. -/
def chebyshev (a b : Pos) : Int :=
  max |a.1 - b.1| |a.2 - b.2|

/-- `is_adjacent(a, b)` from the source: Chebyshev distance at most 1. -/
def is_adjacent (a b : Pos) : Bool :=
  decide (chebyshev a b ≤ 1)

/-- In-bounds test `0 <= x < width and 0 <= y < height` used throughout
the source. -/
def inBounds (width height : Nat) (p : Pos) : Prop :=
  0 ≤ p.1 ∧ p.1 < (width : Int) ∧ 0 ≤ p.2 ∧ p.2 < (height : Int)

instance instDecidableInBounds (width height : Nat) (p : Pos) :
    Decidable (inBounds width height p) := by
  unfold inBounds; infer_instance

/-- Position displaced by a step: `(x + dx, y + dy)`. -/
def padd (p δ : Pos) : Pos := (p.1 + δ.1, p.2 + δ.2)

/-- `iter_in_bounds_neighbors8(x, y, width, height)` from the source:
the in-bounds 8-neighbors of `(x, y)` paired with the step that reaches
them, in `NEIGHBORS_8` order. -/
def iter_in_bounds_neighbors8 (x y : Int) (width height : Nat) :
    List (Pos × Step) :=
  NEIGHBORS_8.filterMap (fun δ =>
    if inBounds width height (x + δ.1, y + δ.2) then
      some ((x + δ.1, y + δ.2), δ)
    else none)

/-- `MapStatic` from the source: static map facts.  The walkability
matrix is embedded as a function on positions; it is only ever consulted
under an in-bounds guard, exactly as the array accesses in the source. -/
structure MapStatic where
  width : Nat
  height : Nat
  walkable : Pos → Bool
  tiles_by_name : String → List Pos

/-- `MapStatic.is_walkable(p)`: in bounds and walkable. -/
def MapStatic.is_walkable (s : MapStatic) (p : Pos) : Bool :=
  decide (inBounds s.width s.height p) && s.walkable p

/-- `MapStatic.adjacent_walkable_cells(target)`: the walkable in-bounds
8-neighbors of `target`, plus `target` itself when walkable.  The Python
`set` becomes a `Finset`. -/
def MapStatic.adjacent_walkable_cells (s : MapStatic) (target : Pos) :
    Finset Pos :=
  (((iter_in_bounds_neighbors8 target.1 target.2 s.width s.height).filter
      (fun nδ => s.walkable nδ.1)).map (fun nδ => nδ.1)).toFinset ∪
    (if s.is_walkable target then {target} else ∅)

/-- `DistanceField` from the source; the frozen `dist` matrix is a
function on positions. -/
@[ext]
structure DistanceField where
  width : Nat
  height : Nat
  dist : Pos → Int

/-- `DistanceField.get(p)`: bounds-checked read, `-1` out of bounds. -/
def DistanceField.get (f : DistanceField) (p : Pos) : Int :=
  if inBounds f.width f.height p then f.dist p else -1

/-- Pointwise update of the embedded `dist` matrix. -/
def updD (d : Pos → Int) (c : Pos) (v : Int) : Pos → Int :=
  fun x => if x = c then v else d x

/-- A cell on which the BFS may stand: in bounds and walkable, i.e. the
guard `0 <= gx < width and 0 <= gy < height and static.walkable[gx][gy]`
of the source. -/
def validCell (s : MapStatic) (p : Pos) : Prop :=
  inBounds s.width s.height p ∧ s.walkable p = true

instance instDecidableValidCell (s : MapStatic) (p : Pos) :
    Decidable (validCell s p) := by
  unfold validCell; infer_instance

/-- One iteration of the goal-seeding loop of `DistanceField.build`: an
in-bounds walkable goal not yet seeded gets distance 0 and is
enqueued. -/
def seedStep (s : MapStatic) (acc : (Pos → Int) × List Pos) (g : Pos) :
    (Pos → Int) × List Pos :=
  if validCell s g then
    if acc.1 g = -1 then (updD acc.1 g 0, acc.2 ++ [g]) else acc
  else acc

/-- The goal-seeding loop of `DistanceField.build`. -/
def seedGoals (s : MapStatic) (goals : List Pos) :
    (Pos → Int) × List Pos :=
  goals.foldl (seedStep s) (fun _ => -1, [])

/-- One neighbor visit of the BFS inner loop: skip unwalkable cells and
cells already assigned, otherwise assign `base + 1` and enqueue. -/
def relaxStep (s : MapStatic) (base : Int)
    (acc : (Pos → Int) × List Pos) (nδ : Pos × Step) :
    (Pos → Int) × List Pos :=
  if s.walkable nδ.1 = true then
    if acc.1 nδ.1 = -1 then
      (updD acc.1 nδ.1 (base + 1), acc.2 ++ [nδ.1])
    else acc
  else acc

/-- The `while q:` loop of `DistanceField.build`, fuel-indexed: pop the
head, read its distance, relax all in-bounds 8-neighbors. -/
def bfsLoop (s : MapStatic) : Nat → (Pos → Int) → List Pos → Pos → Int
  | 0, d, _ => d
  | _ + 1, d, [] => d
  | fuel + 1, d, c :: rest =>
      let st := (iter_in_bounds_neighbors8 c.1 c.2 s.width s.height).foldl
        (relaxStep s (d c)) (d, rest)
      bfsLoop s fuel st.1 st.2

/-- `DistanceField.build(static, goals)` from the source: multi-source
BFS from the valid goals over the 8-connected walkable subgraph. -/
def DistanceField.build (s : MapStatic) (goals : List Pos) : DistanceField :=
  let sq := seedGoals s goals
  { width := s.width
    height := s.height
    dist := bfsLoop s (s.width * s.height + goals.length) sq.1 sq.2 }

/-- The comparison key of `best_step_from`:
`(distance, abs(dx) + abs(dy), dx, dy)`. -/
abbrev StepKey := Int × Int × Int × Int

/-- Strict lexicographic order on step keys, i.e. Python tuple `<`. -/
def keyLt (a b : StepKey) : Prop :=
  a.1 < b.1 ∨ (a.1 = b.1 ∧ (a.2.1 < b.2.1 ∨ (a.2.1 = b.2.1 ∧
    (a.2.2.1 < b.2.2.1 ∨ (a.2.2.1 = b.2.2.1 ∧ a.2.2.2 < b.2.2.2)))))

instance instDecidableKeyLt (a b : StepKey) : Decidable (keyLt a b) := by
  unfold keyLt; infer_instance

/-- Non-strict version of `keyLt`. -/
def keyLe (a b : StepKey) : Prop :=
  keyLt a b ∨ a = b

/-- The key attached to a candidate step with neighbor distance `d`. -/
def stepKey (d : Int) (δ : Step) : StepKey :=
  (d, |δ.1| + |δ.2|, δ.1, δ.2)

/-- The running `best` / `best_key` update of `best_step_from`: skip
neighbors at distance `-1`, otherwise keep the key-smallest candidate,
first encountered winning ties (keys are distinct in practice). -/
def chooseBest (f : DistanceField) (acc : Option (Step × StepKey))
    (nδ : Pos × Step) : Option (Step × StepKey) :=
  if f.get nδ.1 = -1 then acc
  else
    match acc with
    | none => some (nδ.2, stepKey (f.get nδ.1) nδ.2)
    | some (b, bk) =>
        if keyLt (stepKey (f.get nδ.1) nδ.2) bk then
          some (nδ.2, stepKey (f.get nδ.1) nδ.2)
        else some (b, bk)

/-- `DistanceField.best_step_from(p)` from the source. -/
def DistanceField.best_step_from (f : DistanceField) (p : Pos) :
    Option Step :=
  if f.get p ≤ 0 then none
  else
    ((iter_in_bounds_neighbors8 p.1 p.2 f.width f.height).foldl
        (chooseBest f) none).map (fun bk => bk.1)

/-- `Navigator` from the source: a static map plus the goal-set-keyed
field cache.  The Python `dict` (insertion-ordered, key equality) is an
association list; new keys are appended at the tail. -/
structure Navigator where
  static : MapStatic
  field_cache : List (Finset Pos × DistanceField)

/-- `dict.get` on the embedded cache: the value at the first (unique)
entry whose key equals `k`. -/
def cacheGet (cache : List (Finset Pos × DistanceField)) (k : Finset Pos) :
    Option DistanceField :=
  (cache.find? (fun e => decide (e.1 = k))).map (fun e => e.2)

/-- Lexicographic order on positions, used only to enumerate a goal
`Finset` when feeding it to the BFS (Python iterates the `frozenset` in
an unspecified order; the field is enumeration-independent, see
`build_goals_congr`). -/
def posKeyLe (a b : Pos) : Prop :=
  a.1 < b.1 ∨ (a.1 = b.1 ∧ a.2 ≤ b.2)

instance instDecidablePosKeyLe : DecidableRel posKeyLe := fun a b => by
  unfold posKeyLe; infer_instance

instance instTotalPosKeyLe : IsTotal Pos posKeyLe :=
  ⟨by intro a b; unfold posKeyLe; omega⟩

instance instTransPosKeyLe : IsTrans Pos posKeyLe :=
  ⟨by intro a b c; unfold posKeyLe; omega⟩

instance instAntisymmPosKeyLe : IsAntisymm Pos posKeyLe :=
  ⟨by
    intro a b h1 h2
    obtain ⟨a1, a2⟩ := a
    obtain ⟨b1, b2⟩ := b
    unfold posKeyLe at h1 h2
    simp only [Prod.mk.injEq]
    omega⟩

/-- A concrete enumeration of a goal set. -/
def enumGoals (g : Finset Pos) : List Pos :=
  g.sort posKeyLe

/-- `Navigator.field_to_goals(goals)`: cached lookup, else build and
insert.  State passing makes the cache mutation explicit. -/
def Navigator.field_to_goals (nav : Navigator) (goals : Finset Pos) :
    DistanceField × Navigator :=
  match cacheGet nav.field_cache goals with
  | some f => (f, nav)
  | none =>
      let f := DistanceField.build nav.static (enumGoals goals)
      (f, { nav with field_cache := nav.field_cache ++ [(goals, f)] })

/-- `Navigator.field_to_adjacent_of(target)`. -/
def Navigator.field_to_adjacent_of (nav : Navigator) (target : Pos) :
    (Finset Pos × DistanceField) × Navigator :=
  let goals := nav.static.adjacent_walkable_cells target
  let r := nav.field_to_goals goals
  ((goals, r.1), r.2)

/-- `Navigator.step_towards_adjacent(from_pos, target)`. -/
def Navigator.step_towards_adjacent (nav : Navigator)
    (from_pos target : Pos) : Option Step × Navigator :=
  if is_adjacent from_pos target then (none, nav)
  else
    let r := nav.field_to_adjacent_of target
    (r.1.2.best_step_from from_pos, r.2)

/-- A 3x3 map whose center cell is the only unwalkable one (the walled
example of the spec). -/
def exBlocked3 : MapStatic :=
  { width := 3, height := 3
    walkable := fun c => decide (c ≠ (1, 1))
    tiles_by_name := fun _ => [] }

/-- A fully walkable 3x3 map. -/
def exOpen3 : MapStatic :=
  { width := 3, height := 3
    walkable := fun _ => true
    tiles_by_name := fun _ => [] }

/-- A fully walkable 5x5 map (the end-to-end example of the spec). -/
def exOpen5 : MapStatic :=
  { width := 5, height := 5
    walkable := fun _ => true
    tiles_by_name := fun _ => [] }

/-- Specification-side reachability, following the spec's words: a cell
reachable in `n` 8-connected hops from some in-bounds walkable goal,
through in-bounds walkable cells only. -/
inductive Reaches (s : MapStatic) (goals : List Pos) : Nat → Pos → Prop
  | goal (p : Pos) (hg : p ∈ goals) (hv : validCell s p) :
      Reaches s goals 0 p
  | step (n : Nat) (q p : Pos) (δ : Step) (hδ : δ ∈ NEIGHBORS_8)
      (hq : Reaches s goals n q) (hp : p = padd q δ)
      (hv : validCell s p) : Reaches s goals (n + 1) p

/-- The finite set of in-bounds positions of a map. -/
def gridF (s : MapStatic) : Finset Pos :=
  Finset.Icc (0 : Int) ((s.width : Int) - 1) ×ˢ
    Finset.Icc (0 : Int) ((s.height : Int) - 1)

/-- Number of grid cells still carrying the `-1` sentinel (part of the
loop termination measure). -/
def unvisited (s : MapStatic) (d : Pos → Int) : Nat :=
  ((gridF s).filter (fun c => d c = -1)).card

/-- BFS loop invariant tying the working distance map and queue to the
reachability specification. -/
structure BfsInv (s : MapStatic) (goals : List Pos) (d : Pos → Int)
    (q : List Pos) : Prop where
  qVisited : ∀ c ∈ q, d c ≠ -1
  sound : ∀ c, d c ≠ -1 →
    validCell s c ∧ 0 ≤ d c ∧ Reaches s goals (d c).toNat c
  goalsZero : ∀ c ∈ goals, validCell s c → d c = 0
  processed : ∀ c, d c ≠ -1 → c ∉ q → ∀ δ ∈ NEIGHBORS_8,
    validCell s (padd c δ) → d (padd c δ) ≠ -1 ∧ d (padd c δ) ≤ d c + 1
  band : ∀ c, d c ≠ -1 → ∀ b ∈ q, d c ≤ d b + 1
  sorted : List.Pairwise (fun a b => d a ≤ d b) q

theorem updD_self (d : Pos → Int) (c : Pos) (v : Int) : updD d c v c = v := by
  simp [updD]

theorem updD_ne (d : Pos → Int) (c : Pos) (v : Int) {x : Pos} (h : x ≠ c) :
    updD d c v x = d x := by
  simp [updD, h]

theorem mem_iter8c {c : Pos} {w h : Nat} {e : Pos × Step} :
    e ∈ iter_in_bounds_neighbors8 c.1 c.2 w h ↔
      ∃ δ ∈ NEIGHBORS_8, e = (padd c δ, δ) ∧ inBounds w h (padd c δ) := by
  unfold iter_in_bounds_neighbors8 padd
  simp only [List.mem_filterMap]
  constructor
  · rintro ⟨δ, hδ, hf⟩
    by_cases hb : inBounds w h (c.1 + δ.1, c.2 + δ.2)
    · rw [if_pos hb] at hf
      exact ⟨δ, hδ, (Option.some.inj hf).symm, hb⟩
    · rw [if_neg hb] at hf
      exact absurd hf (by simp)
  · rintro ⟨δ, hδ, rfl, hb⟩
    exact ⟨δ, hδ, by rw [if_pos hb]⟩

theorem neg_mem_neighbors8 :
    ∀ δ ∈ NEIGHBORS_8, ((-δ.1, -δ.2) : Step) ∈ NEIGHBORS_8 := by decide

theorem padd_padd_neg (q : Pos) (δ : Step) :
    padd (padd q δ) (-δ.1, -δ.2) = q := by
  unfold padd
  obtain ⟨q1, q2⟩ := q
  simp only [Prod.mk.injEq]
  omega

theorem keyLt_trans {a b c : StepKey} (h1 : keyLt a b) (h2 : keyLt b c) :
    keyLt a c := by
  obtain ⟨a1, a2, a3, a4⟩ := a
  obtain ⟨b1, b2, b3, b4⟩ := b
  obtain ⟨c1, c2, c3, c4⟩ := c
  unfold keyLt at h1 h2 ⊢
  dsimp only at h1 h2 ⊢
  omega

theorem keyLe_refl (a : StepKey) : keyLe a a := Or.inr rfl

theorem keyLe_trans {a b c : StepKey} (h1 : keyLe a b) (h2 : keyLe b c) :
    keyLe a c := by
  rcases h1 with h1 | rfl
  · rcases h2 with h2 | rfl
    · exact Or.inl (keyLt_trans h1 h2)
    · exact Or.inl h1
  · exact h2

theorem keyLe_lt_trans {a b c : StepKey} (h1 : keyLe a b) (h2 : keyLt b c) :
    keyLt a c := by
  rcases h1 with h1 | rfl
  · exact keyLt_trans h1 h2
  · exact h2

theorem keyLe_of_not_lt {a b : StepKey} (h : ¬ keyLt a b) : keyLe b a := by
  obtain ⟨a1, a2, a3, a4⟩ := a
  obtain ⟨b1, b2, b3, b4⟩ := b
  unfold keyLt at h
  unfold keyLe keyLt
  simp only [Prod.mk.injEq]
  dsimp only at h ⊢
  omega

theorem keyLe_fst {a b : StepKey} (h : keyLe a b) : a.1 ≤ b.1 := by
  rcases h with h | rfl
  · obtain ⟨a1, a2, a3, a4⟩ := a
    obtain ⟨b1, b2, b3, b4⟩ := b
    unfold keyLt at h
    dsimp only at h ⊢
    omega
  · exact le_refl _

theorem stepKey_inj_step {d1 d2 : Int} {δ1 δ2 : Step}
    (h : stepKey d1 δ1 = stepKey d2 δ2) : δ1 = δ2 := by
  unfold stepKey at h
  obtain ⟨e1, e2⟩ := δ1
  obtain ⟨f1, f2⟩ := δ2
  simp only [Prod.mk.injEq] at h ⊢
  exact ⟨h.2.2.1, h.2.2.2⟩

theorem pairwise_of_forall_mem {α : Type} {R : α → α → Prop} {l : List α}
    (h : ∀ a ∈ l, ∀ b ∈ l, R a b) : l.Pairwise R := by
  induction l with
  | nil => exact List.Pairwise.nil
  | cons x t ih =>
      refine List.Pairwise.cons ?_ (ih ?_)
      · intro b hb
        exact h x (List.mem_cons_self x t) b (List.mem_cons_of_mem x hb)
      · intro a ha b hb
        exact h a (List.mem_cons_of_mem x ha) b (List.mem_cons_of_mem x hb)

theorem mem_gridF {s : MapStatic} {c : Pos} :
    c ∈ gridF s ↔ inBounds s.width s.height c := by
  unfold gridF inBounds
  simp only [Finset.mem_product, Finset.mem_Icc]
  omega

theorem card_gridF (s : MapStatic) : (gridF s).card = s.width * s.height := by
  unfold gridF
  rw [Finset.card_product, Int.card_Icc, Int.card_Icc]
  have h1 : ((s.width : Int) - 1 + 1 - 0).toNat = s.width := by omega
  have h2 : ((s.height : Int) - 1 + 1 - 0).toNat = s.height := by omega
  rw [h1, h2]

theorem unvisited_le (s : MapStatic) (d : Pos → Int) :
    unvisited s d ≤ s.width * s.height := by
  unfold unvisited
  calc ((gridF s).filter (fun c => d c = -1)).card ≤ (gridF s).card :=
        Finset.card_filter_le _ _
    _ = s.width * s.height := card_gridF s

theorem unvisited_updD {s : MapStatic} {d : Pos → Int} {c : Pos} {v : Int}
    (hin : inBounds s.width s.height c) (hc : d c = -1) (hv : v ≠ -1) :
    unvisited s (updD d c v) + 1 = unvisited s d := by
  unfold unvisited
  have hset : (gridF s).filter (fun x => updD d c v x = -1) =
      ((gridF s).filter (fun x => d x = -1)).erase c := by
    ext x
    simp only [Finset.mem_filter, Finset.mem_erase]
    constructor
    · rintro ⟨hg, hx⟩
      by_cases hxc : x = c
      · subst hxc
        rw [updD_self] at hx
        exact absurd hx hv
      · rw [updD_ne d c v hxc] at hx
        exact ⟨hxc, hg, hx⟩
    · rintro ⟨hxc, hg, hx⟩
      exact ⟨hg, by rw [updD_ne d c v hxc]; exact hx⟩
  have hmem : c ∈ (gridF s).filter (fun x => d x = -1) :=
    Finset.mem_filter.mpr ⟨mem_gridF.mpr hin, hc⟩
  rw [hset, Finset.card_erase_of_mem hmem]
  have := Finset.card_pos.mpr ⟨c, hmem⟩
  omega

theorem seed_mono (s : MapStatic) :
    ∀ (l : List Pos) (d : Pos → Int) (q : List Pos) (x : Pos), d x ≠ -1 →
      (l.foldl (seedStep s) (d, q)).1 x = d x := by
  intro l
  induction l with
  | nil => intro d q x _; rfl
  | cons g t ih =>
      intro d q x hx
      rw [List.foldl_cons]
      unfold seedStep
      dsimp only
      by_cases hv : validCell s g
      · rw [if_pos hv]
        by_cases hd : d g = -1
        · rw [if_pos hd]
          have hxg : x ≠ g := fun he => hx (he ▸ hd)
          have hx2 : updD d g 0 x ≠ -1 := by
            rw [updD_ne d g 0 hxg]; exact hx
          exact (ih (updD d g 0) (q ++ [g]) x hx2).trans (updD_ne d g 0 hxg)
        · rw [if_neg hd]; exact ih d q x hx
      · rw [if_neg hv]; exact ih d q x hx

theorem seed_fold (s : MapStatic) (gs : List Pos) :
    ∀ (l : List Pos) (d : Pos → Int) (q : List Pos),
      (∀ e ∈ l, e ∈ gs) →
      (∀ x, (d x = -1 ∧ x ∉ q) ∨
        (d x = 0 ∧ x ∈ q ∧ x ∈ gs ∧ validCell s x)) →
      (∀ x, ((l.foldl (seedStep s) (d, q)).1 x = -1 ∧
            x ∉ (l.foldl (seedStep s) (d, q)).2) ∨
          ((l.foldl (seedStep s) (d, q)).1 x = 0 ∧
            x ∈ (l.foldl (seedStep s) (d, q)).2 ∧ x ∈ gs ∧ validCell s x)) ∧
        (l.foldl (seedStep s) (d, q)).2.length ≤ q.length + l.length ∧
        (∀ g ∈ l, validCell s g → (l.foldl (seedStep s) (d, q)).1 g = 0) := by
  intro l
  induction l with
  | nil =>
      intro d q _ hinv
      refine ⟨hinv, by simp, ?_⟩
      intro g hg
      exact absurd hg (List.not_mem_nil g)
  | cons g t ih =>
      intro d q hsub hinv
      rw [List.foldl_cons]
      by_cases hv : validCell s g
      · by_cases hd : d g = -1
        · have hstep : seedStep s (d, q) g = (updD d g 0, q ++ [g]) := by
            unfold seedStep
            dsimp only
            rw [if_pos hv, if_pos hd]
          rw [hstep]
          have hinv2 : ∀ x, (updD d g 0 x = -1 ∧ x ∉ q ++ [g]) ∨
              (updD d g 0 x = 0 ∧ x ∈ q ++ [g] ∧ x ∈ gs ∧ validCell s x) := by
            intro x
            by_cases hxg : x = g
            · subst hxg
              refine Or.inr ⟨updD_self d x 0, ?_, hsub x (List.mem_cons_self x t), hv⟩
              exact List.mem_append_right q (List.mem_singleton_self x)
            · rw [updD_ne d g 0 hxg]
              rcases hinv x with ⟨h1, h2⟩ | ⟨h1, h2, h3, h4⟩
              · refine Or.inl ⟨h1, ?_⟩
                intro hmem
                rcases List.mem_append.mp hmem with hmem | hmem
                · exact h2 hmem
                · exact hxg (List.mem_singleton.mp hmem)
              · exact Or.inr ⟨h1, List.mem_append_left _ h2, h3, h4⟩
          obtain ⟨P1, P2, P3⟩ := ih (updD d g 0) (q ++ [g])
            (fun e he => hsub e (List.mem_cons_of_mem g he)) hinv2
          refine ⟨P1, ?_, ?_⟩
          · rw [List.length_append] at P2
            simp only [List.length_cons, List.length_nil] at P2 ⊢
            omega
          · intro g0 hg0 hvg0
            rcases List.mem_cons.mp hg0 with rfl | hg0
            · have hne : updD d g0 0 g0 ≠ -1 := by
                rw [updD_self]; decide
              exact (seed_mono s t _ _ g0 hne).trans (updD_self d g0 0)
            · exact P3 g0 hg0 hvg0
        · have hstep : seedStep s (d, q) g = (d, q) := by
            unfold seedStep
            dsimp only
            rw [if_pos hv, if_neg hd]
          rw [hstep]
          obtain ⟨P1, P2, P3⟩ := ih d q
            (fun e he => hsub e (List.mem_cons_of_mem g he)) hinv
          refine ⟨P1, by simp only [List.length_cons]; omega, ?_⟩
          intro g0 hg0 hvg0
          rcases List.mem_cons.mp hg0 with rfl | hg0
          · have h0 : d g0 = 0 := by
              rcases hinv g0 with ⟨h1, _⟩ | ⟨h1, _⟩
              · exact absurd h1 hd
              · exact h1
            exact (seed_mono s t d q g0 hd).trans h0
          · exact P3 g0 hg0 hvg0
      · have hstep : seedStep s (d, q) g = (d, q) := by
          unfold seedStep
          dsimp only
          rw [if_neg hv]
        rw [hstep]
        obtain ⟨P1, P2, P3⟩ := ih d q
          (fun e he => hsub e (List.mem_cons_of_mem g he)) hinv
        refine ⟨P1, by simp only [List.length_cons]; omega, ?_⟩
        intro g0 hg0 hvg0
        rcases List.mem_cons.mp hg0 with rfl | hg0
        · exact absurd hvg0 hv
        · exact P3 g0 hg0 hvg0

theorem seedGoals_spec (s : MapStatic) (goals : List Pos) :
    (∀ x, ((seedGoals s goals).1 x = -1 ∧ x ∉ (seedGoals s goals).2) ∨
      ((seedGoals s goals).1 x = 0 ∧ x ∈ (seedGoals s goals).2 ∧
        x ∈ goals ∧ validCell s x)) ∧
    (seedGoals s goals).2.length ≤ goals.length ∧
    (∀ g ∈ goals, validCell s g → (seedGoals s goals).1 g = 0) := by
  have h := seed_fold s goals goals (fun _ => -1) [] (fun _ he => he)
    (fun x => Or.inl ⟨rfl, List.not_mem_nil x⟩)
  unfold seedGoals
  exact ⟨h.1, by simpa using h.2.1, h.2.2⟩

theorem seed_inv (s : MapStatic) (goals : List Pos) :
    BfsInv s goals (seedGoals s goals).1 (seedGoals s goals).2 := by
  obtain ⟨hP, _, hZ⟩ := seedGoals_spec s goals
  refine ⟨?_, ?_, hZ, ?_, ?_, ?_⟩
  · intro c hc
    rcases hP c with ⟨_, h2⟩ | ⟨h1, _⟩
    · exact absurd hc h2
    · rw [h1]; decide
  · intro c hc
    rcases hP c with ⟨h1, _⟩ | ⟨h1, _, h3, h4⟩
    · exact absurd h1 hc
    · refine ⟨h4, by rw [h1], ?_⟩
      rw [h1]
      exact Reaches.goal c h3 h4
  · intro c hc hnq δ _ _
    rcases hP c with ⟨h1, _⟩ | ⟨_, h2, _⟩
    · exact absurd h1 hc
    · exact absurd h2 hnq
  · intro c hc b hb
    have h1 : (seedGoals s goals).1 c = 0 := by
      rcases hP c with ⟨h1, _⟩ | ⟨h1, _⟩
      · exact absurd h1 hc
      · exact h1
    have h2 : (seedGoals s goals).1 b = 0 := by
      rcases hP b with ⟨_, h2⟩ | ⟨h2, _⟩
      · exact absurd hb h2
      · exact h2
    rw [h1, h2]; decide
  · refine pairwise_of_forall_mem ?_
    intro a ha b hb
    have h1 : (seedGoals s goals).1 a = 0 := by
      rcases hP a with ⟨_, h2⟩ | ⟨h2, _⟩
      · exact absurd ha h2
      · exact h2
    have h2 : (seedGoals s goals).1 b = 0 := by
      rcases hP b with ⟨_, h3⟩ | ⟨h3, _⟩
      · exact absurd hb h3
      · exact h3
    rw [h1, h2]

theorem relax_fold (s : MapStatic) (base : Int) (hbase : 0 ≤ base) :
    ∀ (l : List (Pos × Step)) (d : Pos → Int) (q : List Pos),
      ∃ new : List Pos,
        (l.foldl (relaxStep s base) (d, q)).2 = q ++ new ∧
        (∀ x, ((l.foldl (relaxStep s base) (d, q)).1 x = d x ∧ x ∉ new) ∨
          (d x = -1 ∧ (l.foldl (relaxStep s base) (d, q)).1 x = base + 1 ∧
            x ∈ new ∧ s.walkable x = true ∧ ∃ e ∈ l, e.1 = x)) ∧
        (∀ e ∈ l, s.walkable e.1 = true →
          (l.foldl (relaxStep s base) (d, q)).1 e.1 ≠ -1) := by
  intro l
  induction l with
  | nil =>
      intro d q
      refine ⟨[], by simp, ?_, ?_⟩
      · intro x
        exact Or.inl ⟨rfl, List.not_mem_nil x⟩
      · intro e he
        exact absurd he (List.not_mem_nil e)
  | cons e t ih =>
      intro d q
      rw [List.foldl_cons]
      by_cases hw : s.walkable e.1 = true
      · by_cases hd : d e.1 = -1
        · have hstep : relaxStep s base (d, q) e =
              (updD d e.1 (base + 1), q ++ [e.1]) := by
            unfold relaxStep
            dsimp only
            rw [if_pos hw, if_pos hd]
          rw [hstep]
          obtain ⟨new2, H1, H2, H3⟩ := ih (updD d e.1 (base + 1)) (q ++ [e.1])
          refine ⟨e.1 :: new2, by rw [H1]; simp, ?_, ?_⟩
          · intro x
            by_cases hxe : x = e.1
            · subst hxe
              rcases H2 e.1 with ⟨h1, _⟩ | ⟨h1, _⟩
              · refine Or.inr ⟨hd, ?_, List.mem_cons_self e.1 new2, hw,
                  e, List.mem_cons_self e t, rfl⟩
                rw [h1, updD_self]
              · rw [updD_self] at h1
                exfalso
                omega
            · rcases H2 x with ⟨h1, h2⟩ | ⟨h1, h2, h3, h4, h5⟩
              · refine Or.inl ⟨?_, ?_⟩
                · rw [h1, updD_ne d e.1 (base + 1) hxe]
                · intro hmem
                  rcases List.mem_cons.mp hmem with hmem | hmem
                  · exact hxe hmem
                  · exact h2 hmem
              · rw [updD_ne d e.1 (base + 1) hxe] at h1
                obtain ⟨e2, he2, hx2⟩ := h5
                exact Or.inr ⟨h1, h2, List.mem_cons_of_mem e.1 h3, h4,
                  e2, List.mem_cons_of_mem e he2, hx2⟩
          · intro e2 he2 hw2
            rcases List.mem_cons.mp he2 with rfl | he2
            · rcases H2 e2.1 with ⟨h1, _⟩ | ⟨_, h1, _⟩
              · rw [h1, updD_self]
                omega
              · rw [h1]
                omega
            · exact H3 e2 he2 hw2
        · have hstep : relaxStep s base (d, q) e = (d, q) := by
            unfold relaxStep
            dsimp only
            rw [if_pos hw, if_neg hd]
          rw [hstep]
          obtain ⟨new2, H1, H2, H3⟩ := ih d q
          refine ⟨new2, H1, ?_, ?_⟩
          · intro x
            rcases H2 x with h | ⟨h1, h2, h3, h4, e2, he2, hx2⟩
            · exact Or.inl h
            · exact Or.inr ⟨h1, h2, h3, h4, e2, List.mem_cons_of_mem e he2, hx2⟩
          · intro e2 he2 hw2
            rcases List.mem_cons.mp he2 with rfl | he2
            · rcases H2 e2.1 with ⟨h1, _⟩ | ⟨h1, _⟩
              · rw [h1]; exact hd
              · exact absurd h1 hd
            · exact H3 e2 he2 hw2
      · have hstep : relaxStep s base (d, q) e = (d, q) := by
          unfold relaxStep
          dsimp only
          rw [if_neg hw]
        rw [hstep]
        obtain ⟨new2, H1, H2, H3⟩ := ih d q
        refine ⟨new2, H1, ?_, ?_⟩
        · intro x
          rcases H2 x with h | ⟨h1, h2, h3, h4, e2, he2, hx2⟩
          · exact Or.inl h
          · exact Or.inr ⟨h1, h2, h3, h4, e2, List.mem_cons_of_mem e he2, hx2⟩
        · intro e2 he2 hw2
          rcases List.mem_cons.mp he2 with rfl | he2
          · exact absurd hw2 hw
          · exact H3 e2 he2 hw2

theorem relax_fold_measure (s : MapStatic) (base : Int) (hbase : 0 ≤ base) :
    ∀ (l : List (Pos × Step)) (d : Pos → Int) (q : List Pos),
      (∀ e ∈ l, inBounds s.width s.height e.1) →
      (l.foldl (relaxStep s base) (d, q)).2.length +
          unvisited s (l.foldl (relaxStep s base) (d, q)).1 =
        q.length + unvisited s d := by
  intro l
  induction l with
  | nil => intro d q _; rfl
  | cons e t ih =>
      intro d q hb
      rw [List.foldl_cons]
      by_cases hw : s.walkable e.1 = true
      · by_cases hd : d e.1 = -1
        · have hstep : relaxStep s base (d, q) e =
              (updD d e.1 (base + 1), q ++ [e.1]) := by
            unfold relaxStep
            dsimp only
            rw [if_pos hw, if_pos hd]
          rw [hstep]
          have hm := ih (updD d e.1 (base + 1)) (q ++ [e.1])
            (fun e2 he2 => hb e2 (List.mem_cons_of_mem e he2))
          have hu : unvisited s (updD d e.1 (base + 1)) + 1 = unvisited s d :=
            unvisited_updD (hb e (List.mem_cons_self e t)) hd (by omega)
          rw [hm, List.length_append]
          simp only [List.length_cons, List.length_nil]
          omega
        · have hstep : relaxStep s base (d, q) e = (d, q) := by
            unfold relaxStep
            dsimp only
            rw [if_pos hw, if_neg hd]
          rw [hstep]
          exact ih d q (fun e2 he2 => hb e2 (List.mem_cons_of_mem e he2))
      · have hstep : relaxStep s base (d, q) e = (d, q) := by
          unfold relaxStep
          dsimp only
          rw [if_neg hw]
        rw [hstep]
        exact ih d q (fun e2 he2 => hb e2 (List.mem_cons_of_mem e he2))

theorem bfs_step (s : MapStatic) (goals : List Pos) (d : Pos → Int) (c : Pos)
    (rest : List Pos) (inv : BfsInv s goals d (c :: rest)) :
    BfsInv s goals
        ((iter_in_bounds_neighbors8 c.1 c.2 s.width s.height).foldl
          (relaxStep s (d c)) (d, rest)).1
        ((iter_in_bounds_neighbors8 c.1 c.2 s.width s.height).foldl
          (relaxStep s (d c)) (d, rest)).2 ∧
      ((iter_in_bounds_neighbors8 c.1 c.2 s.width s.height).foldl
          (relaxStep s (d c)) (d, rest)).2.length +
        unvisited s ((iter_in_bounds_neighbors8 c.1 c.2 s.width s.height).foldl
          (relaxStep s (d c)) (d, rest)).1 + 1 =
      (c :: rest).length + unvisited s d := by
  have hdc : d c ≠ -1 := inv.qVisited c (List.mem_cons_self c rest)
  obtain ⟨hvc, hbc, hrc⟩ := inv.sound c hdc
  obtain ⟨new, hq, hpt, hcov⟩ :=
    relax_fold s (d c) hbc
      (iter_in_bounds_neighbors8 c.1 c.2 s.width s.height) d rest
  have hbounds : ∀ e ∈ iter_in_bounds_neighbors8 c.1 c.2 s.width s.height,
      inBounds s.width s.height e.1 := by
    intro e he
    obtain ⟨δ, _, he2, hb⟩ := mem_iter8c.mp he
    subst he2
    exact hb
  have hold : ∀ x, d x ≠ -1 →
      ((iter_in_bounds_neighbors8 c.1 c.2 s.width s.height).foldl
        (relaxStep s (d c)) (d, rest)).1 x = d x := by
    intro x hx
    rcases hpt x with ⟨h1, _⟩ | ⟨h1, _⟩
    · exact h1
    · exact absurd h1 hx
  have hnew : ∀ x ∈ new,
      ((iter_in_bounds_neighbors8 c.1 c.2 s.width s.height).foldl
          (relaxStep s (d c)) (d, rest)).1 x = d c + 1 ∧
        d x = -1 ∧ validCell s x ∧ ∃ δ ∈ NEIGHBORS_8, x = padd c δ := by
    intro x hx
    rcases hpt x with ⟨_, h2⟩ | ⟨h1, h2, _, h4, h5⟩
    · exact absurd hx h2
    · obtain ⟨e, he, hex⟩ := h5
      obtain ⟨δ, hδ, he2, hb⟩ := mem_iter8c.mp he
      subst he2
      dsimp only at hex
      subst hex
      exact ⟨h2, h1, ⟨hb, h4⟩, δ, hδ, rfl⟩
  have hstd : ∀ x,
      ((iter_in_bounds_neighbors8 c.1 c.2 s.width s.height).foldl
        (relaxStep s (d c)) (d, rest)).1 x ≠ -1 →
      (d x ≠ -1 ∧
        ((iter_in_bounds_neighbors8 c.1 c.2 s.width s.height).foldl
          (relaxStep s (d c)) (d, rest)).1 x = d x) ∨ x ∈ new := by
    intro x hx
    rcases hpt x with ⟨h1, _⟩ | ⟨_, _, h3, _⟩
    · exact Or.inl ⟨by rw [h1] at hx; exact hx, h1⟩
    · exact Or.inr h3
  refine ⟨⟨?_, ?_, ?_, ?_, ?_, ?_⟩, ?_⟩
  · -- qVisited
    intro b hb
    rw [hq] at hb
    rcases List.mem_append.mp hb with hb | hb
    · have hdb : d b ≠ -1 := inv.qVisited b (List.mem_cons_of_mem c hb)
      rw [hold b hdb]
      exact hdb
    · rw [(hnew b hb).1]
      omega
  · -- sound
    intro x hx
    rcases hstd x hx with ⟨hdx, hex⟩ | hx2
    · obtain ⟨v1, v2, v3⟩ := inv.sound x hdx
      rw [hex]
      exact ⟨v1, v2, v3⟩
    · obtain ⟨h1, _, hval, δ, hδ, hpx⟩ := hnew x hx2
      refine ⟨hval, by rw [h1]; omega, ?_⟩
      rw [h1]
      have ht : (d c + 1).toNat = (d c).toNat + 1 := by omega
      rw [ht]
      exact Reaches.step (d c).toNat c x δ hδ hrc hpx hval
  · -- goalsZero
    intro g hg hvg
    have h0 := inv.goalsZero g hg hvg
    have hne : d g ≠ -1 := by rw [h0]; decide
    rw [hold g hne, h0]
  · -- processed
    intro x hx hnx δ hδ hvy
    rcases hstd x hx with ⟨hdx, hex⟩ | hx2
    · by_cases hxc : x = c
      · subst hxc
        have hyL : (padd x δ, δ) ∈
            iter_in_bounds_neighbors8 x.1 x.2 s.width s.height :=
          mem_iter8c.mpr ⟨δ, hδ, rfl, hvy.1⟩
        have hy1 := hcov (padd x δ, δ) hyL hvy.2
        refine ⟨hy1, ?_⟩
        rcases hstd (padd x δ) hy1 with ⟨hdy, hey⟩ | hy2
        · rw [hey, hex]
          exact inv.band (padd x δ) hdy x (List.mem_cons_self x rest)
        · rw [(hnew _ hy2).1, hex]
      · have hxq : x ∉ c :: rest := by
          intro hmem
          rcases List.mem_cons.mp hmem with h | h
          · exact hxc h
          · exact hnx (by rw [hq]; exact List.mem_append_left _ h)
        obtain ⟨p1, p2⟩ := inv.processed x hdx hxq δ hδ hvy
        refine ⟨by rw [hold _ p1]; exact p1, ?_⟩
        rw [hold _ p1, hex]
        exact p2
    · exact absurd (by rw [hq]; exact List.mem_append_right _ hx2) hnx
  · -- band
    intro x hx b hb
    rw [hq] at hb
    rcases hstd x hx with ⟨hdx, hex⟩ | hx2
    · rcases List.mem_append.mp hb with hb | hb
      · rw [hex, hold b (inv.qVisited b (List.mem_cons_of_mem c hb))]
        exact inv.band x hdx b (List.mem_cons_of_mem c hb)
      · rw [hex, (hnew b hb).1]
        have := inv.band x hdx c (List.mem_cons_self c rest)
        omega
    · obtain ⟨h1, _⟩ := hnew x hx2
      rcases List.mem_append.mp hb with hb | hb
      · rw [h1, hold b (inv.qVisited b (List.mem_cons_of_mem c hb))]
        have hcb := (List.pairwise_cons.mp inv.sorted).1 b hb
        omega
      · rw [h1, (hnew b hb).1]
        omega
  · -- sorted
    rw [hq]
    refine List.pairwise_append.mpr ⟨?_, ?_, ?_⟩
    · have hrp := (List.pairwise_cons.mp inv.sorted).2
      refine hrp.imp_of_mem ?_
      intro a b ha hb hab
      rw [hold a (inv.qVisited a (List.mem_cons_of_mem c ha)),
        hold b (inv.qVisited b (List.mem_cons_of_mem c hb))]
      exact hab
    · refine pairwise_of_forall_mem ?_
      intro a ha b hb
      rw [(hnew a ha).1, (hnew b hb).1]
    · intro a ha b hb
      rw [hold a (inv.qVisited a (List.mem_cons_of_mem c ha)), (hnew b hb).1]
      have := inv.band a (inv.qVisited a (List.mem_cons_of_mem c ha)) c
        (List.mem_cons_self c rest)
      omega
  · -- measure
    have hm := relax_fold_measure s (d c) hbc
      (iter_in_bounds_neighbors8 c.1 c.2 s.width s.height) d rest hbounds
    simp only [List.length_cons]
    omega

theorem bfsLoop_post (s : MapStatic) (goals : List Pos) :
    ∀ (fuel : Nat) (d : Pos → Int) (q : List Pos),
      BfsInv s goals d q → q.length + unvisited s d ≤ fuel →
      BfsInv s goals (bfsLoop s fuel d q) [] := by
  intro fuel
  induction fuel with
  | zero =>
      intro d q inv hm
      have hq : q = [] := List.length_eq_zero.mp (by omega)
      subst hq
      exact inv
  | succ n ih =>
      intro d q inv hm
      cases q with
      | nil => exact inv
      | cons c rest =>
          obtain ⟨inv2, hmeas⟩ := bfs_step s goals d c rest inv
          show BfsInv s goals
            (bfsLoop s n
              ((iter_in_bounds_neighbors8 c.1 c.2 s.width s.height).foldl
                (relaxStep s (d c)) (d, rest)).1
              ((iter_in_bounds_neighbors8 c.1 c.2 s.width s.height).foldl
                (relaxStep s (d c)) (d, rest)).2) []
          refine ih _ _ inv2 ?_
          simp only [List.length_cons] at hm hmeas
          omega

theorem build_inv (s : MapStatic) (goals : List Pos) :
    BfsInv s goals (DistanceField.build s goals).dist [] := by
  have hinv := seed_inv s goals
  have hlen := (seedGoals_spec s goals).2.1
  have hunv := unvisited_le s (seedGoals s goals).1
  exact bfsLoop_post s goals (s.width * s.height + goals.length)
    (seedGoals s goals).1 (seedGoals s goals).2 hinv (by omega)

theorem reach_le (s : MapStatic) (goals : List Pos) {d : Pos → Int}
    (hinv : BfsInv s goals d []) :
    ∀ (n : Nat) (p : Pos), Reaches s goals n p →
      d p ≠ -1 ∧ d p ≤ (n : Int) := by
  intro n p h
  induction h with
  | goal p hg hv =>
      have h0 := hinv.goalsZero p hg hv
      exact ⟨by rw [h0]; decide, by rw [h0]; simp⟩
  | step n q p δ hδ hq hp hv ih =>
      obtain ⟨h1, h2⟩ := ih
      rw [hp] at hv
      obtain ⟨h3, h4⟩ := hinv.processed q h1 (List.not_mem_nil q) δ hδ hv
      refine ⟨by rw [hp]; exact h3, ?_⟩
      rw [hp]
      push_cast
      omega

theorem exists_min_reach {s : MapStatic} {goals : List Pos} {p : Pos}
    (h : ∃ n, Reaches s goals n p) :
    ∃ n, Reaches s goals n p ∧ ∀ m, Reaches s goals m p → n ≤ m := by
  haveI : DecidablePred fun n => Reaches s goals n p := Classical.decPred _
  exact ⟨Nat.find h, Nat.find_spec h, fun m hm => Nat.find_min' h hm⟩

theorem build_get_eq (s : MapStatic) (goals : List Pos) (p : Pos) :
    (DistanceField.build s goals).get p =
      (DistanceField.build s goals).dist p := by
  unfold DistanceField.get
  split_ifs with h
  · rfl
  · by_contra hne
    have hd : (DistanceField.build s goals).dist p ≠ -1 :=
      fun he => hne he.symm
    have hval := ((build_inv s goals).sound p hd).1
    exact h hval.1

theorem build_dist_spec (s : MapStatic) (goals : List Pos) (p : Pos) :
    ((DistanceField.build s goals).get p = -1 ↔
      ∀ n, ¬ Reaches s goals n p) ∧
    (∀ n : Nat, Reaches s goals n p → (∀ m, Reaches s goals m p → n ≤ m) →
      (DistanceField.build s goals).get p = (n : Int)) := by
  have hinv := build_inv s goals
  constructor
  · constructor
    · intro h0 n hn
      obtain ⟨h1, _⟩ := reach_le s goals hinv n p hn
      rw [build_get_eq] at h0
      exact h1 h0
    · intro hno
      rw [build_get_eq]
      by_contra hne
      obtain ⟨_, _, h3⟩ := hinv.sound p hne
      exact hno _ h3
  · intro n hr hmin
    obtain ⟨h1, h2⟩ := reach_le s goals hinv n p hr
    obtain ⟨_, h4, h5⟩ := hinv.sound p h1
    have h6 : n ≤ ((DistanceField.build s goals).dist p).toNat := hmin _ h5
    rw [build_get_eq]
    omega

theorem build_values (s : MapStatic) (goals : List Pos) (p : Pos) :
    (DistanceField.build s goals).get p = -1 ∨
      0 ≤ (DistanceField.build s goals).get p := by
  by_cases h : (DistanceField.build s goals).dist p = -1
  · left
    rw [build_get_eq]
    exact h
  · right
    rw [build_get_eq]
    exact ((build_inv s goals).sound p h).2.1

theorem reaches_succ_inv {s : MapStatic} {goals : List Pos} {m : Nat} {p : Pos}
    (h : Reaches s goals (m + 1) p) :
    ∃ q δ, δ ∈ NEIGHBORS_8 ∧ Reaches s goals m q ∧ p = padd q δ ∧
      validCell s p := by
  cases h with
  | step n q p δ hδ hq hp hv => exact ⟨q, δ, hδ, hq, hp, hv⟩

theorem exists_pred (s : MapStatic) (goals : List Pos) (p : Pos)
    (h : 0 < (DistanceField.build s goals).get p) :
    ∃ δ ∈ NEIGHBORS_8, validCell s (padd p δ) ∧
      0 ≤ (DistanceField.build s goals).get (padd p δ) ∧
      (DistanceField.build s goals).get (padd p δ) <
        (DistanceField.build s goals).get p := by
  have hinv := build_inv s goals
  rw [build_get_eq] at h
  have hne : (DistanceField.build s goals).dist p ≠ -1 := by omega
  obtain ⟨hv, hnn, hr⟩ := hinv.sound p hne
  obtain ⟨m, hm⟩ :
      ∃ m, ((DistanceField.build s goals).dist p).toNat = m + 1 :=
    ⟨((DistanceField.build s goals).dist p).toNat - 1, by omega⟩
  rw [hm] at hr
  obtain ⟨q, δ, hδ, hq, hp, _⟩ := reaches_succ_inv hr
  obtain ⟨hq1, hq2⟩ := reach_le s goals hinv m q hq
  obtain ⟨hvq, hqnn, _⟩ := hinv.sound q hq1
  subst hp
  refine ⟨(-δ.1, -δ.2), neg_mem_neighbors8 δ hδ, ?_, ?_, ?_⟩
  · rw [padd_padd_neg]
    exact hvq
  · rw [padd_padd_neg, build_get_eq]
    exact hqnn
  · rw [padd_padd_neg, build_get_eq, build_get_eq]
    omega

theorem reaches_congr {s : MapStatic} {g1 g2 : List Pos}
    (h : ∀ x, x ∈ g1 ↔ x ∈ g2) :
    ∀ {n : Nat} {p : Pos}, Reaches s g1 n p → Reaches s g2 n p := by
  intro n p hr
  induction hr with
  | goal p hg hv => exact Reaches.goal p ((h p).mp hg) hv
  | step n q p δ hδ hq hp hv ih => exact Reaches.step n q p δ hδ ih hp hv

theorem build_goals_congr (s : MapStatic) {g1 g2 : List Pos}
    (h : ∀ x, x ∈ g1 ↔ x ∈ g2) :
    DistanceField.build s g1 = DistanceField.build s g2 := by
  have hiff : ∀ x, x ∈ g2 ↔ x ∈ g1 := fun x => (h x).symm
  apply DistanceField.ext
  · rfl
  · rfl
  · funext p
    rw [← build_get_eq, ← build_get_eq]
    by_cases hr : ∃ n, Reaches s g1 n p
    · obtain ⟨n, hn, hmin⟩ := exists_min_reach hr
      rw [(build_dist_spec s g1 p).2 n hn hmin,
        (build_dist_spec s g2 p).2 n (reaches_congr h hn)
          (fun m hm => hmin m (reaches_congr hiff hm))]
    · have h1 : ∀ n, ¬ Reaches s g1 n p := fun n hn => hr ⟨n, hn⟩
      rw [(build_dist_spec s g1 p).1.mpr h1,
        (build_dist_spec s g2 p).1.mpr
          (fun n hn => h1 n (reaches_congr hiff hn))]

theorem no_valid_goal_no_reach {s : MapStatic} {goals : List Pos}
    (h : ∀ g ∈ goals, ¬ validCell s g) :
    ∀ {n : Nat} {p : Pos}, ¬ Reaches s goals n p := by
  intro n p hr
  induction hr with
  | goal p hg hv => exact h p hg hv
  | step n q p δ hδ hq hp hv ih => exact ih

theorem chooseBest_fold (f : DistanceField) :
    ∀ (l : List (Pos × Step)) (acc : Option (Step × StepKey)),
      (l.foldl (chooseBest f) acc = none ↔
        acc = none ∧ ∀ e ∈ l, f.get e.1 = -1) ∧
      (∀ δ k, l.foldl (chooseBest f) acc = some (δ, k) →
        (acc = some (δ, k) ∨
          ∃ e ∈ l, f.get e.1 ≠ -1 ∧ δ = e.2 ∧ k = stepKey (f.get e.1) e.2) ∧
        (∀ e ∈ l, f.get e.1 ≠ -1 → keyLe k (stepKey (f.get e.1) e.2)) ∧
        (∀ b bk, acc = some (b, bk) → keyLe k bk)) := by
  intro l
  induction l with
  | nil =>
      intro acc
      constructor
      · simp
      · intro δ k hk
        rw [List.foldl_nil] at hk
        refine ⟨Or.inl hk, ?_, ?_⟩
        · intro e he
          exact absurd he (List.not_mem_nil e)
        · intro b bk hbk
          rw [hk] at hbk
          have h2 : (δ, k) = (b, bk) := Option.some.inj hbk
          have hk2 : k = bk := congrArg Prod.snd h2
          exact hk2 ▸ keyLe_refl k
  | cons e t ih =>
      intro acc
      rw [List.foldl_cons]
      by_cases he : f.get e.1 = -1
      · have hstep : chooseBest f acc e = acc := by
          unfold chooseBest
          rw [if_pos he]
        rw [hstep]
        obtain ⟨I1, I2⟩ := ih acc
        constructor
        · rw [I1]
          constructor
          · rintro ⟨h1, h2⟩
            refine ⟨h1, ?_⟩
            intro e2 he2
            rcases List.mem_cons.mp he2 with rfl | he2
            · exact he
            · exact h2 e2 he2
          · rintro ⟨h1, h2⟩
            exact ⟨h1, fun e2 he2 => h2 e2 (List.mem_cons_of_mem e he2)⟩
        · intro δ k hk
          obtain ⟨J1, J2, J3⟩ := I2 δ k hk
          refine ⟨?_, ?_, J3⟩
          · rcases J1 with J1 | ⟨e2, he2, hrest⟩
            · exact Or.inl J1
            · exact Or.inr ⟨e2, List.mem_cons_of_mem e he2, hrest⟩
          · intro e2 he2 hne
            rcases List.mem_cons.mp he2 with rfl | he2
            · exact absurd he hne
            · exact J2 e2 he2 hne
      · cases acc with
        | none =>
            have hstep : chooseBest f none e =
                some (e.2, stepKey (f.get e.1) e.2) := by
              unfold chooseBest
              rw [if_neg he]
            rw [hstep]
            obtain ⟨I1, I2⟩ := ih (some (e.2, stepKey (f.get e.1) e.2))
            constructor
            · rw [I1]
              constructor
              · rintro ⟨h1, _⟩
                exact absurd h1 (by simp)
              · rintro ⟨_, h2⟩
                exact absurd (h2 e (List.mem_cons_self e t)) he
            · intro δ k hk
              obtain ⟨J1, J2, J3⟩ := I2 δ k hk
              refine ⟨?_, ?_, ?_⟩
              · rcases J1 with J1 | ⟨e2, he2, hrest⟩
                · simp only [Option.some.injEq, Prod.mk.injEq] at J1
                  exact Or.inr ⟨e, List.mem_cons_self e t, he,
                    J1.1.symm, J1.2.symm⟩
                · exact Or.inr ⟨e2, List.mem_cons_of_mem e he2, hrest⟩
              · intro e2 he2 hne
                rcases List.mem_cons.mp he2 with rfl | he2
                · exact J3 e2.2 (stepKey (f.get e2.1) e2.2) rfl
                · exact J2 e2 he2 hne
              · intro b bk hbk
                exact Option.noConfusion hbk
        | some pr =>
            obtain ⟨b0, bk0⟩ := pr
            by_cases hlt : keyLt (stepKey (f.get e.1) e.2) bk0
            · have hstep : chooseBest f (some (b0, bk0)) e =
                  some (e.2, stepKey (f.get e.1) e.2) := by
                unfold chooseBest
                rw [if_neg he]
                dsimp only
                rw [if_pos hlt]
              rw [hstep]
              obtain ⟨I1, I2⟩ := ih (some (e.2, stepKey (f.get e.1) e.2))
              constructor
              · rw [I1]
                constructor
                · rintro ⟨h1, _⟩
                  exact absurd h1 (by simp)
                · rintro ⟨h1, _⟩
                  exact absurd h1 (by simp)
              · intro δ k hk
                obtain ⟨J1, J2, J3⟩ := I2 δ k hk
                have hkk : keyLe k (stepKey (f.get e.1) e.2) :=
                  J3 e.2 (stepKey (f.get e.1) e.2) rfl
                refine ⟨?_, ?_, ?_⟩
                · rcases J1 with J1 | ⟨e2, he2, hrest⟩
                  · simp only [Option.some.injEq, Prod.mk.injEq] at J1
                    exact Or.inr ⟨e, List.mem_cons_self e t, he,
                      J1.1.symm, J1.2.symm⟩
                  · exact Or.inr ⟨e2, List.mem_cons_of_mem e he2, hrest⟩
                · intro e2 he2 hne
                  rcases List.mem_cons.mp he2 with rfl | he2
                  · exact hkk
                  · exact J2 e2 he2 hne
                · intro b bk hbk
                  have h2 : (b0, bk0) = (b, bk) := Option.some.inj hbk
                  have hbk2 : bk0 = bk := congrArg Prod.snd h2
                  exact hbk2 ▸ Or.inl (keyLe_lt_trans hkk hlt)
            · have hstep : chooseBest f (some (b0, bk0)) e =
                  some (b0, bk0) := by
                unfold chooseBest
                rw [if_neg he]
                dsimp only
                rw [if_neg hlt]
              rw [hstep]
              obtain ⟨I1, I2⟩ := ih (some (b0, bk0))
              constructor
              · rw [I1]
                constructor
                · rintro ⟨h1, _⟩
                  exact absurd h1 (by simp)
                · rintro ⟨h1, _⟩
                  exact absurd h1 (by simp)
              · intro δ k hk
                obtain ⟨J1, J2, J3⟩ := I2 δ k hk
                have hkb : keyLe k bk0 := J3 b0 bk0 rfl
                have hke : keyLe k (stepKey (f.get e.1) e.2) :=
                  keyLe_trans hkb (keyLe_of_not_lt hlt)
                refine ⟨?_, ?_, ?_⟩
                · rcases J1 with J1 | ⟨e2, he2, hrest⟩
                  · exact Or.inl J1
                  · exact Or.inr ⟨e2, List.mem_cons_of_mem e he2, hrest⟩
                · intro e2 he2 hne
                  rcases List.mem_cons.mp he2 with rfl | he2
                  · exact hke
                  · exact J2 e2 he2 hne
                · intro b bk hbk
                  have h2 : (b0, bk0) = (b, bk) := Option.some.inj hbk
                  have hbk2 : bk0 = bk := congrArg Prod.snd h2
                  exact hbk2 ▸ hkb

theorem best_step_none_of_nonpos (f : DistanceField) (p : Pos)
    (h : f.get p ≤ 0) : f.best_step_from p = none := by
  unfold DistanceField.best_step_from
  rw [if_pos h]

theorem build_best_step_isSome (s : MapStatic) (goals : List Pos) (p : Pos)
    (h : 0 < (DistanceField.build s goals).get p) :
    ∃ δ, (DistanceField.build s goals).best_step_from p = some δ := by
  obtain ⟨δ0, hδ0, hval, hge, _⟩ := exists_pred s goals p h
  have hmem : (padd p δ0, δ0) ∈ iter_in_bounds_neighbors8 p.1 p.2
      (DistanceField.build s goals).width
      (DistanceField.build s goals).height :=
    mem_iter8c.mpr ⟨δ0, hδ0, rfl, hval.1⟩
  unfold DistanceField.best_step_from
  rw [if_neg (not_le.mpr h)]
  cases hfold : (iter_in_bounds_neighbors8 p.1 p.2
      (DistanceField.build s goals).width
      (DistanceField.build s goals).height).foldl
      (chooseBest (DistanceField.build s goals)) none with
  | none =>
      have hall := ((chooseBest_fold (DistanceField.build s goals) _
        none).1.mp hfold).2 (padd p δ0, δ0) hmem
      dsimp only at hall
      exact absurd hall (by omega)
  | some pr =>
      exact ⟨pr.1, by simp⟩

theorem build_best_step_char (s : MapStatic) (goals : List Pos) (p : Pos)
    (δ : Step)
    (hs : (DistanceField.build s goals).best_step_from p = some δ) :
    0 < (DistanceField.build s goals).get p ∧
    δ ∈ NEIGHBORS_8 ∧
    inBounds (DistanceField.build s goals).width
      (DistanceField.build s goals).height (padd p δ) ∧
    0 ≤ (DistanceField.build s goals).get (padd p δ) ∧
    (DistanceField.build s goals).get (padd p δ) <
      (DistanceField.build s goals).get p ∧
    (∀ δ2 ∈ NEIGHBORS_8, δ2 ≠ δ →
      inBounds (DistanceField.build s goals).width
        (DistanceField.build s goals).height (padd p δ2) →
      (DistanceField.build s goals).get (padd p δ2) ≠ -1 →
      keyLt (stepKey ((DistanceField.build s goals).get (padd p δ)) δ)
        (stepKey ((DistanceField.build s goals).get (padd p δ2)) δ2)) := by
  unfold DistanceField.best_step_from at hs
  by_cases hle : (DistanceField.build s goals).get p ≤ 0
  · rw [if_pos hle] at hs
    exact Option.noConfusion hs
  · rw [if_neg hle] at hs
    have hpos : 0 < (DistanceField.build s goals).get p := not_le.mp hle
    cases hfold : (iter_in_bounds_neighbors8 p.1 p.2
        (DistanceField.build s goals).width
        (DistanceField.build s goals).height).foldl
        (chooseBest (DistanceField.build s goals)) none with
    | none =>
        rw [hfold] at hs
        exact Option.noConfusion hs
    | some pr =>
        obtain ⟨b, k⟩ := pr
        rw [hfold] at hs
        simp only [Option.map_some'] at hs
        have hbδ : b = δ := Option.some.inj hs
        subst hbδ
        have spec := (chooseBest_fold (DistanceField.build s goals) _ none).2
          b k hfold
        rcases spec.1 with h1 | ⟨e, heL, hne, hbe, hke⟩
        · exact Option.noConfusion h1
        · obtain ⟨δ1, hδ1, he2, hbnd⟩ := mem_iter8c.mp heL
          subst he2
          dsimp only at hbe hne hke
          rw [← hbe] at hδ1 hbnd hne hke
          have hnn : 0 ≤ (DistanceField.build s goals).get (padd p b) := by
            rcases build_values s goals (padd p b) with hv | hv
            · exact absurd hv hne
            · exact hv
          refine ⟨hpos, hδ1, hbnd, hnn, ?_, ?_⟩
          · -- strict decrease via the BFS predecessor
            obtain ⟨δ0, hδ0, hval0, hge0, hlt0⟩ := exists_pred s goals p hpos
            have hmem0 : (padd p δ0, δ0) ∈ iter_in_bounds_neighbors8 p.1 p.2
                (DistanceField.build s goals).width
                (DistanceField.build s goals).height :=
              mem_iter8c.mpr ⟨δ0, hδ0, rfl, hval0.1⟩
            have hmin0 : keyLe k
                (stepKey ((DistanceField.build s goals).get (padd p δ0)) δ0) :=
              spec.2.1 (padd p δ0, δ0) hmem0 (by dsimp only; omega)
            have hfst := keyLe_fst hmin0
            rw [hke] at hfst
            have hfst2 : (DistanceField.build s goals).get (padd p b) ≤
                (DistanceField.build s goals).get (padd p δ0) := hfst
            omega
          · intro δ2 h2mem h2ne h2b h2d
            have hmem2 : (padd p δ2, δ2) ∈ iter_in_bounds_neighbors8 p.1 p.2
                (DistanceField.build s goals).width
                (DistanceField.build s goals).height :=
              mem_iter8c.mpr ⟨δ2, h2mem, rfl, h2b⟩
            have hmin2 := spec.2.1 (padd p δ2, δ2) hmem2 h2d
            rw [hke] at hmin2
            rcases hmin2 with hlt | heq
            · exact hlt
            · exact absurd (stepKey_inj_step heq).symm h2ne

theorem build_best_step_none_iff (s : MapStatic) (goals : List Pos)
    (p : Pos) :
    (DistanceField.build s goals).best_step_from p = none ↔
      ((DistanceField.build s goals).get p = 0 ∨
        (DistanceField.build s goals).get p = -1) := by
  constructor
  · intro hn
    rcases build_values s goals p with hv | hv
    · exact Or.inr hv
    · by_cases h0 : (DistanceField.build s goals).get p = 0
      · exact Or.inl h0
      · exfalso
        obtain ⟨δ, hδ⟩ := build_best_step_isSome s goals p (by omega)
        rw [hδ] at hn
        exact Option.noConfusion hn
  · intro h
    exact best_step_none_of_nonpos _ _ (by omega)

theorem cacheGet_append_of_ne (cache : List (Finset Pos × DistanceField))
    (g k : Finset Pos) (f : DistanceField) (h : k ≠ g) :
    cacheGet (cache ++ [(g, f)]) k = cacheGet cache k := by
  unfold cacheGet
  rw [List.find?_append]
  have h1 : List.find? (fun e => decide (e.1 = k)) [(g, f)] = none := by
    rw [List.find?_cons_of_neg]
    · rfl
    · simp only [decide_eq_true_eq]
      exact fun he => h he.symm
  rw [h1, Option.or_none]

theorem cacheGet_append_self (cache : List (Finset Pos × DistanceField))
    (g : Finset Pos) (f : DistanceField) (h : cacheGet cache g = none) :
    cacheGet (cache ++ [(g, f)]) g = some f := by
  unfold cacheGet at h ⊢
  rw [List.find?_append]
  have h2 : List.find? (fun e => decide (e.1 = g)) cache = none := by
    cases hf : List.find? (fun e => decide (e.1 = g)) cache with
    | none => rfl
    | some e =>
        rw [hf] at h
        exact absurd h (by simp)
  rw [h2, Option.none_or, List.find?_cons_of_pos]
  · rfl
  · simp

theorem field_to_goals_found (nav : Navigator) (g : Finset Pos)
    (f0 : DistanceField) (h : cacheGet nav.field_cache g = some f0) :
    nav.field_to_goals g = (f0, nav) := by
  unfold Navigator.field_to_goals
  rw [h]

theorem field_to_goals_missing (nav : Navigator) (g : Finset Pos)
    (h : cacheGet nav.field_cache g = none) :
    nav.field_to_goals g =
      (DistanceField.build nav.static (enumGoals g),
        { nav with field_cache := nav.field_cache ++
          [(g, DistanceField.build nav.static (enumGoals g))] }) := by
  unfold Navigator.field_to_goals
  rw [h]

/-- C1: for every `MapStatic` and goal list, `DistanceField.build`
assigns to each cell reachable from some in-bounds walkable goal through
8-connected walkable cells exactly the minimum hop count (second
conjunct), and assigns `-1` exactly to the cells — unwalkable,
out of bounds, or disconnected — that no hop count reaches (first
conjunct). -/
theorem c1_bfs_exact_distances (s : MapStatic) (goals : List Pos) (p : Pos) :
    ((DistanceField.build s goals).get p = -1 ↔
      ∀ n, ¬ Reaches s goals n p) ∧
    (∀ n : Nat, Reaches s goals n p → (∀ m, Reaches s goals m p → n ≤ m) →
      (DistanceField.build s goals).get p = (n : Int)) :=
  build_dist_spec s goals p

theorem c1_witness :
    (DistanceField.build exBlocked3 [((2 : Int), (2 : Int))]).get (2, 2)
      = 0 := by
  have h := (c1_bfs_exact_distances exBlocked3 [((2 : Int), (2 : Int))]
    (2, 2)).2 0 (Reaches.goal (2, 2) (by decide) (by decide))
    (fun m _ => Nat.zero_le m)
  exact_mod_cast h

/-- C2: on a built field, `best_step_from` returns `none` exactly when
the distance at `p` is 0 or -1; otherwise the returned step is the
in-bounds neighbor candidate with non-negative distance minimizing the
strict lexicographic key `(distance, abs dx + abs dy, dx, dy)`. -/
theorem c2_best_step_selection (s : MapStatic) (goals : List Pos) (p : Pos) :
    ((DistanceField.build s goals).best_step_from p = none ↔
      ((DistanceField.build s goals).get p = 0 ∨
        (DistanceField.build s goals).get p = -1)) ∧
    (∀ δ, (DistanceField.build s goals).best_step_from p = some δ →
      0 < (DistanceField.build s goals).get p ∧ δ ∈ NEIGHBORS_8 ∧
      inBounds (DistanceField.build s goals).width
        (DistanceField.build s goals).height (padd p δ) ∧
      0 ≤ (DistanceField.build s goals).get (padd p δ) ∧
      ∀ δ2 ∈ NEIGHBORS_8, δ2 ≠ δ →
        inBounds (DistanceField.build s goals).width
          (DistanceField.build s goals).height (padd p δ2) →
        0 ≤ (DistanceField.build s goals).get (padd p δ2) →
        keyLt (stepKey ((DistanceField.build s goals).get (padd p δ)) δ)
          (stepKey ((DistanceField.build s goals).get (padd p δ2)) δ2)) := by
  refine ⟨build_best_step_none_iff s goals p, ?_⟩
  intro δ hδ
  obtain ⟨h1, h2, h3, h4, _, h6⟩ := build_best_step_char s goals p δ hδ
  refine ⟨h1, h2, h3, h4, ?_⟩
  intro δ2 hm hne hb hge
  exact h6 δ2 hm hne hb (by omega)

theorem c2_witness :
    (DistanceField.build exOpen5 [((2 : Int), (2 : Int))]).best_step_from
      (2, 2) = none :=
  (c2_best_step_selection exOpen5 [((2 : Int), (2 : Int))] (2, 2)).1.mpr
    (Or.inl (by decide))

/-- C3, counterexample: on the 3x3 grid with only the center blocked and
goal `(2,2)`, the field value at `(0,0)` is not 2 as the claim states
(the shortest 8-connected walkable route has 3 hops). -/
theorem c3_counterexample :
    ¬ ((DistanceField.build exBlocked3 [((2 : Int), (2 : Int))]).get (0, 0)
      = 2) := by decide

/-- C3, amended: on the 3x3 grid with only the center blocked and goal
`(2,2)`, the field routes around the blocked center and `dist[0][0]`
equals 3. -/
theorem c3_blocked_center_distance :
    (DistanceField.build exBlocked3 [((2 : Int), (2 : Int))]).get (0, 0)
      = 3 := by decide

/-- C4: `DistanceField.build` is deterministic — rebuilding from the
same goals gives the same field — and depends on its goal collection
only through membership, so differently ordered enumerations of the
same goal set give identical fields. -/
theorem c4_deterministic_order_independent (s : MapStatic)
    (g1 g2 : List Pos) (h : ∀ x, x ∈ g1 ↔ x ∈ g2) :
    DistanceField.build s g1 = DistanceField.build s g1 ∧
    DistanceField.build s g1 = DistanceField.build s g2 :=
  ⟨rfl, build_goals_congr s h⟩

theorem c4_witness :
    DistanceField.build exOpen3 [((0 : Int), (0 : Int)), ((2 : Int), (2 : Int))] =
      DistanceField.build exOpen3 [((2 : Int), (2 : Int)), ((0 : Int), (0 : Int))] :=
  (c4_deterministic_order_independent exOpen3 _ _
    (by intro x; simp only [List.mem_cons, List.not_mem_nil, or_false]; tauto)).2

/-- C5: whenever `best_step_from` on a built field returns a step, the
field value at the stepped-to cell is strictly below the value at the
starting cell. -/
theorem c5_step_decreases (s : MapStatic) (goals : List Pos) (p : Pos)
    (δ : Step)
    (h : (DistanceField.build s goals).best_step_from p = some δ) :
    (DistanceField.build s goals).get (padd p δ) <
      (DistanceField.build s goals).get p :=
  (build_best_step_char s goals p δ h).2.2.2.2.1

theorem c5_witness :
    (DistanceField.build exOpen5 [((2 : Int), (2 : Int))]).get
        (padd (0, 0) (1, 1)) <
      (DistanceField.build exOpen5 [((2 : Int), (2 : Int))]).get (0, 0) :=
  c5_step_decreases exOpen5 [((2 : Int), (2 : Int))] (0, 0) (1, 1) (by decide)

/-- C6: `field_to_goals` returns the cached field unchanged when the
goal set is already a key; otherwise it returns the freshly built field
and appends exactly that entry, leaving all other keys untouched; the
cache only ever grows, and a repeated call with the same goal set
returns the cached result without further building. -/
theorem c6_cache_frame (nav : Navigator) (g : Finset Pos) :
    (∀ f0, cacheGet nav.field_cache g = some f0 →
      nav.field_to_goals g = (f0, nav)) ∧
    (cacheGet nav.field_cache g = none →
      (nav.field_to_goals g).1 =
        DistanceField.build nav.static (enumGoals g) ∧
      (nav.field_to_goals g).2.field_cache =
        nav.field_cache ++ [(g, (nav.field_to_goals g).1)]) ∧
    (∀ k, k ≠ g → cacheGet (nav.field_to_goals g).2.field_cache k =
      cacheGet nav.field_cache k) ∧
    cacheGet (nav.field_to_goals g).2.field_cache g =
      some (nav.field_to_goals g).1 ∧
    (nav.field_to_goals g).2.static = nav.static ∧
    (∃ tail, (nav.field_to_goals g).2.field_cache =
      nav.field_cache ++ tail) ∧
    (nav.field_to_goals g).2.field_to_goals g =
      ((nav.field_to_goals g).1, (nav.field_to_goals g).2) := by
  cases hc : cacheGet nav.field_cache g with
  | some f =>
      have hfg := field_to_goals_found nav g f hc
      refine ⟨?_, ?_, ?_, ?_, ?_, ?_, ?_⟩
      · intro f0 hf0
        have he : f = f0 := Option.some.inj hf0
        rw [hfg, he]
      · intro hnone
        exact Option.noConfusion hnone
      · intro k _
        rw [hfg]
      · rw [hfg]
        exact hc
      · rw [hfg]
      · exact ⟨[], by rw [hfg, List.append_nil]⟩
      · rw [hfg]
        exact hfg
  | none =>
      have hfg := field_to_goals_missing nav g hc
      have happ : cacheGet (nav.field_cache ++
          [(g, DistanceField.build nav.static (enumGoals g))]) g =
          some (DistanceField.build nav.static (enumGoals g)) :=
        cacheGet_append_self nav.field_cache g _ hc
      refine ⟨?_, ?_, ?_, ?_, ?_, ?_, ?_⟩
      · intro f0 hf0
        exact Option.noConfusion hf0
      · intro _
        rw [hfg]
        exact ⟨rfl, rfl⟩
      · intro k hk
        rw [hfg]
        exact cacheGet_append_of_ne nav.field_cache g k _ hk
      · rw [hfg]
        exact happ
      · rw [hfg]
      · exact ⟨[(g, DistanceField.build nav.static (enumGoals g))],
          by rw [hfg]⟩
      · rw [hfg]
        exact field_to_goals_found _ g _ happ

theorem c6_witness :
    (Navigator.field_to_goals ⟨exOpen3, []⟩ {((2 : Int), (2 : Int))}).1 =
      DistanceField.build exOpen3 (enumGoals {((2 : Int), (2 : Int))}) :=
  ((c6_cache_frame ⟨exOpen3, []⟩ {((2 : Int), (2 : Int))}).2.1 rfl).1

/-- C7: `step_towards_adjacent` returns `none` and leaves the navigator
untouched whenever the start is within Chebyshev distance 1 of the
target, for every navigator state and map. -/
theorem c7_adjacent_no_move (nav : Navigator) (from_pos target : Pos)
    (h : chebyshev from_pos target ≤ 1) :
    nav.step_towards_adjacent from_pos target = (none, nav) := by
  have h2 : is_adjacent from_pos target = true := by
    unfold is_adjacent
    exact decide_eq_true h
  unfold Navigator.step_towards_adjacent
  rw [if_pos h2]

theorem c7_witness :
    Navigator.step_towards_adjacent ⟨exOpen3, []⟩ (0, 0) (1, 1) =
      (none, ⟨exOpen3, []⟩) :=
  c7_adjacent_no_move ⟨exOpen3, []⟩ (0, 0) (1, 1) (by decide)

/-- C8: a goal list with no in-bounds walkable member (in particular the
empty list) yields a well-formed field that is `-1` everywhere, on which
`best_step_from` returns `none` at every position. -/
theorem c8_no_valid_goals (s : MapStatic) (goals : List Pos)
    (h : ∀ g ∈ goals, ¬ validCell s g) :
    (DistanceField.build s goals).width = s.width ∧
    (DistanceField.build s goals).height = s.height ∧
    (∀ p, (DistanceField.build s goals).get p = -1) ∧
    (∀ p, (DistanceField.build s goals).best_step_from p = none) := by
  have hnone : ∀ p, (DistanceField.build s goals).get p = -1 := fun p =>
    (build_dist_spec s goals p).1.mpr (fun _ hn => no_valid_goal_no_reach h hn)
  exact ⟨rfl, rfl, hnone, fun p =>
    best_step_none_of_nonpos _ _ (by rw [hnone p]; decide)⟩

theorem c8_witness :
    (DistanceField.build exOpen3 []).get (1, 1) = -1 ∧
    (DistanceField.build exOpen3 []).best_step_from (1, 1) = none := by
  have h := c8_no_valid_goals exOpen3 []
    (by intro g hg; exact absurd hg (List.not_mem_nil g))
  exact ⟨h.2.2.1 (1, 1), h.2.2.2 (1, 1)⟩

/-- C9: out-of-bounds positions make `is_walkable` return `false` and
`DistanceField.get` return `-1`, with no failure path. -/
theorem c9_out_of_bounds_sentinels (s : MapStatic) (f : DistanceField)
    (p : Pos) :
    (¬ inBounds s.width s.height p → s.is_walkable p = false) ∧
    (¬ inBounds f.width f.height p → f.get p = -1) := by
  constructor
  · intro h
    unfold MapStatic.is_walkable
    rw [decide_eq_false h, Bool.false_and]
  · intro h
    unfold DistanceField.get
    rw [if_neg h]

theorem c9_witness :
    exOpen3.is_walkable (-1, 0) = false ∧
    (DistanceField.build exOpen3 [((2 : Int), (2 : Int))]).get (-1, 0)
      = -1 := by
  have h := c9_out_of_bounds_sentinels exOpen3
    (DistanceField.build exOpen3 [((2 : Int), (2 : Int))]) (-1, 0)
  exact ⟨h.1 (by decide), h.2 (by decide)⟩

/-- C10: on a built field, every position with strictly positive
recorded distance admits a best step: `none` only occurs at goal cells
and at unreachable or unwalkable cells. -/
theorem c10_positive_distance_has_step (s : MapStatic) (goals : List Pos)
    (p : Pos) (h : 0 < (DistanceField.build s goals).get p) :
    ((DistanceField.build s goals).best_step_from p).isSome = true := by
  obtain ⟨δ, hδ⟩ := build_best_step_isSome s goals p h
  rw [hδ]
  rfl

theorem c10_witness :
    ((DistanceField.build exOpen5 [((2 : Int), (2 : Int))]).best_step_from
      (0, 0)).isSome = true :=
  c10_positive_distance_has_step exOpen5 [((2 : Int), (2 : Int))] (0, 0)
    (by decide)

end Noodle
